import Mathlib

/-!
Verification of the `stackerr` Go package (files `error.go`, `stack.go`).

Shallow embedding conventions:
* Go strings are modelled as `List Char` where character-level processing
  matters (formatting, parsing), and as Lean `String` for stored fields.
* `runtime.Frame` is modelled by the triple of the fields this package reads
  and writes: `Function`, `File`, `Line` (`Line` is a Go `int`, modelled `Int`).
* The host runtime's stack capture (`runtime.Callers`) is an out-of-scope
  collaborator; functions that capture the current stack take the capture
  result as an explicit parameter `capture : Nat → Stack`, where
  `capture k` stands for `StackTraceWithSkippedFrames k`.
* `encoding/json` is an out-of-scope collaborator; `ParseStacks` takes the
  observable outcome of its single `json.Unmarshal` call as parameters
  (error flag plus the contents of the `stacks` variable after the call).
-/

namespace Stackerr

/-- One call-site record, the fields of `runtime.Frame` used by the package
(`Function string`, `File string`, `Line int`). -/
structure Frame where
  Function : String
  File : String
  Line : Int
deriving DecidableEq

instance : Inhabited Frame := ⟨⟨"", "", 0⟩⟩

/-- `type Stack []runtime.Frame` (stack.go:12). Index 0 is the innermost frame. -/
abbrev Stack := List Frame

/-- `type Stacks []Stack` (stack.go:13). -/
abbrev Stacks := List Stack

/-- `const stackDivider string = "======================================"` (error.go:11). -/
def stackDivider : String := "======================================"

/-- `strings.HasPrefix s pre` (Go standard library). -/
def strHasPrefix : List Char → List Char → Bool
  | _, [] => true
  | [], _ :: _ => false
  | c :: s, p :: ps => c == p && strHasPrefix s ps

/-- `Stack.trimStack` (stack.go:49-56): drop trailing frames whose `Function`
has the prefix `"runtime."`. The Go loop walks `lastFrameIdx` down from the
end while the prefix matches and returns `s[0:lastFrameIdx+1]`. -/
def trimStack (s : Stack) : Stack :=
  (s.reverse.dropWhile (fun f => strHasPrefix f.Function.data "runtime.".data)).reverse

/-- The loop body of `Stack.IsParentOf` (stack.go:109-120).  `remaining` counts
the iterations still to run (`parent.length + 1 - offset`); the Go loop runs
`offset` from 1 up to `len(parent)` inclusive and exits with `true` when
`offset` passes `len(parent)`. -/
def ipoGo (parent child : List Frame) : Nat → Nat → Bool
  | 0, _ => true
  | remaining + 1, offset =>
    let pFrame := parent.getD (parent.length - offset) default
    let cFrame := child.getD (child.length - offset) default
    if pFrame.Function ≠ cFrame.Function ∨ pFrame.File ≠ cFrame.File ∨
        pFrame.Line < cFrame.Line then false
    else if offset ≠ parent.length ∧ pFrame.Line ≠ cFrame.Line then false
    else ipoGo parent child remaining (offset + 1)

/-- `Stack.IsParentOf` (stack.go:102-122). -/
def IsParentOf (parent child : Stack) : Bool :=
  if child.length < parent.length then false
  else ipoGo parent child parent.length 1

/-- `Stacks.RemoveParents` (stack.go:126-146): keep `s[i]` unless it is a
parent of some later `s[j]` (`j > i`, checked against the original list). -/
def removeParentsGo : List Stack → List Stack
  | [] => []
  | st :: rest =>
    if rest.any (fun c => IsParentOf st c) then removeParentsGo rest
    else st :: removeParentsGo rest

/-- `fmt.Sprintf("%d", n)` for a decimal `Nat`: fuel-indexed digit printer
(fuel `n+1` always suffices). -/
def natTextAux : Nat → Nat → List Char
  | 0, _ => []
  | fuel + 1, n =>
    if n < 10 then [digitChar n]
    else natTextAux fuel (n / 10) ++ [digitChar (n % 10)]
where
  digitChar : Nat → Char
    | 0 => '0' | 1 => '1' | 2 => '2' | 3 => '3' | 4 => '4'
    | 5 => '5' | 6 => '6' | 7 => '7' | 8 => '8' | _ => '9'

/-- Decimal text of a `Nat`. -/
def natText (n : Nat) : List Char := natTextAux (n + 1) n

/-- `fmt.Sprintf("%d", i)` for a Go `int`. -/
def intText (i : Int) : List Char :=
  if i < 0 then '-' :: natText i.natAbs else natText i.toNat

/-- The text `fmt.Sprintf("%s\n\t%s:%d", frame.Function, frame.File, frame.Line)`
contributed by one frame in `Stack.Format` (stack.go:86). -/
def frameText (f : Frame) : List Char :=
  f.Function.data ++ '\n' :: '\t' :: (f.File.data ++ ':' :: intText f.Line)

/-- The loop of `Stack.Format` (stack.go:85-90): frame texts joined by `"\n"`
(the separator is appended only when the frame is not the last one). -/
def formatFrames : List Frame → List Char
  | [] => []
  | [f] => frameText f
  | f :: rest => frameText f ++ '\n' :: formatFrames rest

/-- `Stack.Format` (stack.go:82-92). -/
def Stack.Format (s : Stack) : List Char := formatFrames (trimStack s)

/-- The loop of `Stacks.Format` (stack.go:40-45): per stack append
`stack.Format() + "\n" + stackDivider`, and an extra `"\n"` when the stack is
not the last one. -/
def formatStacksGo : List Stack → List Char
  | [] => []
  | [st] => Stack.Format st ++ '\n' :: stackDivider.data
  | st :: rest => Stack.Format st ++ '\n' :: stackDivider.data ++ '\n' :: formatStacksGo rest

/-- `Stacks.Format` (stack.go:38-47): `stackDivider + "\n"` followed by the loop. -/
def Stacks.Format (s : Stacks) : List Char := stackDivider.data ++ '\n' :: formatStacksGo s

/-- The triples `{function, file, line}` emitted by `Stack.MarshalJSON`
(stack.go:58-79): the trimmed stack's frames, in order. -/
def jsonStackFrames (st : Stack) : List Frame := trimStack st

/-! ### Console-format parsing

`ParseStacks` (stack.go:197-227) uses
`consoleStackRegexp = (?m)^[ \t]*([^\n]+)\n[ \t]+([^\n]+):([0-9]+)[ \t]*$`
(stack.go:35) via `FindAllStringSubmatch`.  Since `^`/`$` are line anchors and
the pattern contains exactly one literal `\n`, every match spans exactly two
whole lines of the block.  Go's `regexp` has leftmost-first (Perl) semantics:

* First line (`[ \t]*([^\n]+)`): matches any non-empty line; the greedy
  `[ \t]*` takes the maximal space/tab prefix, so capture 1 is the line minus
  that prefix — unless the line is entirely whitespace, in which case
  `[ \t]*` backs off one character and capture 1 is the final whitespace char.
* Second line (`[ \t]+([^\n]+):([0-9]+)[ \t]*$`): `[ \t]*$` consumes exactly
  the trailing-whitespace run; `([0-9]+)` the maximal digit run before it;
  the literal `:` must immediately precede that digit run (a digit run
  preceded by anything else cannot split, as `:` is neither a digit nor
  whitespace, making the colon position unique); the line's first character
  must be whitespace and at least two characters must precede the colon
  (one for `[ \t]+`, one for the non-empty capture 2).  The greedy `[ \t]+`
  takes the maximal whitespace prefix and capture 2 the remainder up to the
  colon — unless everything before the colon is whitespace, in which case
  `[ \t]+` backs off and capture 2 is the single character before the colon.
* Matches are non-overlapping and found left to right, so scanning advances
  two lines past a match and one line otherwise.
-/

/-- Is the character in the regexp class `[ \t]`. -/
def isWsChar (c : Char) : Bool := c == ' ' || c == '\t'

/-- Is the character in the regexp class `[0-9]`. -/
def isDigitChar (c : Char) : Bool := '0' ≤ c && c ≤ '9'

/-- Numeric value of a digit character. -/
def digitCharVal (c : Char) : Nat := c.toNat - 48

/-- Value of a digit string (what `strconv.ParseInt(_, 10, _)` computes on a
string of digits). -/
def digitsVal (ds : List Char) : Nat :=
  ds.foldl (fun a c => a * 10 + digitCharVal c) 0

/-- `strconv.ParseInt(match[3], 10, 32)` followed by `int(line)`
(stack.go:216-220): on a pure digit string it yields the decimal value,
clamped to `math.MaxInt32` on range error (the error is discarded). -/
def parseGoInt32 (ds : List Char) : Int :=
  let v := digitsVal ds
  if v ≤ 2147483647 then (v : Int) else 2147483647

/-- Match of the first regexp line `[ \t]*([^\n]+)` against a whole line:
`some` capture 1, per the leftmost-first analysis above. -/
def funcLineMatch (L : List Char) : Option (List Char) :=
  match L with
  | [] => none
  | _ :: _ =>
    let P := L.takeWhile isWsChar
    if P.length < L.length then some (L.drop P.length)
    else some [L.getLastD ' ']

/-- Step 3 of the location-line match: given the reversed remainder after
stripping the digit run (which must start with the literal colon; `pre` is the
text before the colon, reversed) and the digit capture, produce the captures:
at least two characters before the colon, the whitespace capture is the
maximal `[ \t]` prefix unless it swallows everything before the colon, in
which case it backs off one character. -/
def locAfterDigits : List Char → List Char → Option (List Char × List Char)
  | ':' :: pre, ds =>
    if (pre.reverse).length < 2 then none
    else
      if ((pre.reverse).takeWhile isWsChar).length < (pre.reverse).length then
        some ((pre.reverse).drop ((pre.reverse).takeWhile isWsChar).length, ds)
      else some ([(pre.reverse).getLastD ' '], ds)
  | _, _ => none

/-- Step 2 of the location-line match: after stripping the trailing-whitespace
run (the line is presented reversed), the maximal digit run must be non-empty;
it is capture 3. -/
def locAfterWs (revNoWs : List Char) : Option (List Char × List Char) :=
  if revNoWs.takeWhile isDigitChar = [] then none
  else locAfterDigits (revNoWs.dropWhile isDigitChar)
    ((revNoWs.takeWhile isDigitChar).reverse)

/-- Match of the second regexp line `[ \t]+([^\n]+):([0-9]+)[ \t]*$` against a
whole line: `some (capture 2, capture 3)`, per the leftmost-first analysis
above.  The line's first character must be whitespace; the trailing
`[ \t]*` run is stripped from the reversed line, then the digit run, then the
colon and the two captures. -/
def locLineMatch (L : List Char) : Option (List Char × List Char) :=
  match L with
  | [] => none
  | c0 :: _ =>
    if isWsChar c0 = false then none
    else locAfterWs (L.reverse.dropWhile isWsChar)

/-- Fuel-indexed scan of a block's lines for regexp matches (fuel bounds the
number of lines still to look at; the scan advances two lines past a match and
one line otherwise). -/
def scanPairsF : Nat → List (List Char) → List Frame
  | 0, _ => []
  | fuel + 1, ls =>
    match ls with
    | [] => []
    | l1 :: rest =>
      match rest with
      | [] => []
      | l2 :: rest2 =>
        match funcLineMatch l1, locLineMatch l2 with
        | some fc, some (fl, ds) =>
          { Function := String.mk fc, File := String.mk fl, Line := parseGoInt32 ds } ::
            scanPairsF fuel rest2
        | _, _ => scanPairsF fuel rest

/-- `consoleStackRegexp.FindAllStringSubmatch(block, -1)` on the block's lines,
each match converted to a frame as in the loop at stack.go:215-222. -/
def scanPairs (ls : List (List Char)) : List Frame := scanPairsF ls.length ls

/-- Split on a single `'\n'` (`strings.Split(s, "\n")`), used to present a
block to the two-line regexp analysis. -/
def splitNl : List Char → List (List Char)
  | [] => [[]]
  | c :: rest =>
    if c = '\n' then [] :: splitNl rest
    else
      match splitNl rest with
      | [] => [[c]]
      | l :: ls => (c :: l) :: ls

/-- `strings.Split(s, "\n\n")` (stack.go:208): split on non-overlapping
leftmost occurrences of two consecutive newlines. -/
def splitNl2 : List Char → List (List Char)
  | '\n' :: '\n' :: rest => [] :: splitNl2 rest
  | c :: rest =>
    match splitNl2 rest with
    | [] => [[c]]
    | l :: ls => (c :: l) :: ls
  | [] => [[]]

/-- The block loop of `ParseStacks` (stack.go:209-224): for each block, if the
regexp finds no match the block is skipped, otherwise the matched frames are
appended to `stacks` as one new stack. -/
def consoleLoop (stks : Stacks) : List (List Char) → Stacks
  | [] => stks
  | b :: bs =>
    let found := scanPairs (splitNl b)
    if found.length = 0 then consoleLoop stks bs
    else consoleLoop (stks ++ [found]) bs

/-- The acceptance guard on the structured decode
(`len(stacks) > 0 && len(stacks[0]) > 0 && stacks[0][0].File != ""`,
stack.go:201). -/
def goAcceptGuard (stks : Stacks) : Prop :=
  0 < stks.length ∧ 0 < (stks.getD 0 []).length ∧
    ((stks.getD 0 []).getD 0 default).File ≠ ""

instance (stks : Stacks) : Decidable (goAcceptGuard stks) := by
  unfold goAcceptGuard; infer_instance

/-- `ParseStacks` (stack.go:197-227), with the `encoding/json` collaborator's
observable outcome supplied: `jsonErr` is whether `json.Unmarshal` returned an
error, and `stacks0` is the content of the `stacks` variable after that call
(`[]` whenever the input is not syntactically valid JSON, since `Unmarshal`
writes nothing on a syntax error; possibly non-empty otherwise).  When the
guard fails, the console path appends to that same variable.  The line-ending
normalization at stack.go:206 first deletes every `"\r"`, after which the
outer `"\r\n"`-replacement finds nothing, so it amounts to removing `'\r'`. -/
def ParseStacksWith (jsonErr : Bool) (stks0 : Stacks) (s : List Char) : Stacks :=
  if jsonErr = false ∧ goAcceptGuard stks0 then stks0
  else consoleLoop stks0 (splitNl2 (s.filter (fun c => c != '\r')))

/-! ### The error model and the wrapping engine (error.go) -/

/-- Go error values as this package can observe them:
* `base`: an error with no `Unwrap` method and no foreign stack
  (e.g. `errors.New`, `fmt.Errorf` without `%w`);
* `wrapper`: an error whose `Unwrap() error` returns `inner`
  (e.g. `fmt.Errorf` with `%w`);
* `tracer` / `tracerWrap`: a `github.com/pkg/errors` value exposing
  `StackTrace()` (already converted to frames by the out-of-scope
  `runtime.CallersFrames` collaborator), without / with an `Unwrap`;
* `stackError`: this package's own `*stackError`
  (fields `Err`, `StackTraces`, `MetaFields`, error.go:56-60).
  Metadata values are Go `any`; only their identity matters here, so they are
  modelled as `String`. -/
inductive GoError where
  | base (msg : String)
  | wrapper (msg : String) (inner : GoError)
  | tracer (msg : String) (stack : List Frame)
  | tracerWrap (msg : String) (stack : List Frame) (inner : GoError)
  | stackError (Err : GoError) (StackTraces : List (List Frame))
      (MetaFields : List (String × String))
deriving DecidableEq

/-- `unwrapped.(*stackError)` succeeds. -/
def isStackError : GoError → Bool
  | .stackError _ _ _ => true
  | _ => false

/-- The `Err` field, when the value is a `*stackError`. -/
def errField : GoError → Option GoError
  | .stackError e _ _ => some e
  | _ => none

/-- The `StackTraces` field, when the value is a `*stackError`. -/
def stacksFieldOf : GoError → Option (List Stack)
  | .stackError _ s _ => some s
  | _ => none

/-- `StackTraces` of the result of a wrapping call. -/
def stacksOf (r : Option GoError) : Option (List Stack) := r.bind stacksFieldOf

/-- The chain walk of `new` (error.go:205-232): starting at the error itself,
absorb a `*stackError`'s stacks and metadata and stop; convert and append a
`stackTracer`'s stack and continue to `errors.Unwrap`; otherwise just unwrap.
Since `allFields` starts empty and only the first `*stackError` encountered
contributes fields (the loop breaks there), the accumulated metadata is
exactly that value's `MetaFields`. -/
def chainWalk : GoError → List Stack × List (String × String)
  | .stackError _ sts mf => (sts, mf)
  | .tracer _ st => ([st], [])
  | .tracerWrap _ st inner =>
    let r := chainWalk inner
    (st :: r.1, r.2)
  | .wrapper _ inner => chainWalk inner
  | .base _ => ([], [])

/-- The stack-selection step of `new` (error.go:234-241). -/
def selectStacks (newStacks accStacks : List Stack) (addStackToExisting : Bool)
    (current : Stack) : List Stack :=
  if 0 < newStacks.length then newStacks ++ accStacks
  else if accStacks.length = 0 ∨ addStackToExisting = true then current :: accStacks
  else accStacks

/-- The dedup step of `new` (error.go:243-246): `RemoveParents` is applied only
when more than one stack remains. -/
def dedupStacks (l : List Stack) : List Stack :=
  if 1 < l.length then removeParentsGo l else l

/-- `new` (error.go:192-264).  `capture k` stands for
`StackTraceWithSkippedFrames k`; the source calls it with `1 + skippedFrames`
(error.go:240).  The final `*stackError` stores `serr.Err` when the input is
already a `*stackError` (error.go:250-256), else the input itself. -/
def newErr (capture : Nat → Stack) (err : Option GoError) (skippedFrames : Nat)
    (addStackToExisting : Bool) (newStacks : List Stack) : Option GoError :=
  match err with
  | none => none
  | some e =>
    let walk := chainWalk e
    let allStacks := selectStacks newStacks walk.1 addStackToExisting
      (capture (1 + skippedFrames))
    let finalStacks := dedupStacks allStacks
    match e with
    | .stackError serrErr _ _ => some (.stackError serrErr finalStacks walk.2)
    | _ => some (.stackError e finalStacks walk.2)

/-- `Wrap` (error.go:157-159). -/
def Wrap (capture : Nat → Stack) (err : Option GoError) : Option GoError :=
  newErr capture err 1 true []

/-- `WrapWithFrameSkips` (error.go:163-165). -/
def WrapWithFrameSkips (capture : Nat → Stack) (err : Option GoError)
    (skippedFrames : Nat) : Option GoError :=
  newErr capture err (1 + skippedFrames) true []

/-- `WrapWithStack` (error.go:169-171). -/
def WrapWithStack (capture : Nat → Stack) (err : Option GoError) (stack : Stack) :
    Option GoError :=
  newErr capture err 1 true [stack]

/-- `WrapWithoutExtraStack` (error.go:176-178). -/
def WrapWithoutExtraStack (capture : Nat → Stack) (err : Option GoError) :
    Option GoError :=
  newErr capture err 1 false []

/-- `WrapWithFrameSkipsWithoutExtraStack` (error.go:184-186). -/
def WrapWithFrameSkipsWithoutExtraStack (capture : Nat → Stack)
    (err : Option GoError) (skippedFrames : Nat) : Option GoError :=
  newErr capture err (1 + skippedFrames) false []

/-- `Errorf` (error.go:266-269): `e := fmt.Errorf(format, a...)` is never nil;
the built error is passed in (a `wrapper` when the format used `%w`, else a
`base`). -/
def Errorf (capture : Nat → Stack) (e : GoError) : Option GoError :=
  newErr capture (some e) 1 true []

/-- `FromRecover` (error.go:143-153): nil recovers to nil; an `error` value is
wrapped as-is, any other value is first turned into a fresh `base` error by
`fmt.Errorf("%v", r)` — either way the argument of `new` is the supplied
`GoError`. -/
def FromRecover (capture : Nat → Stack) (r : Option GoError) : Option GoError :=
  match r with
  | none => none
  | some e => newErr capture (some e) 3 true []

/-- `stackError.SetError` (error.go:128-130): overwrite the `Err` field,
unconditionally.  On a non-`stackError` value the method does not exist; the
identity fallback keeps the function total. -/
def SetError (se err : GoError) : GoError :=
  match se with
  | .stackError _ sts mf => .stackError err sts mf
  | e => e

/-- One application of a public wrap entry point, used to express "arbitrarily
many nested wrap calls".  `errorf msg wrapPrev` models
`Errorf` whose `fmt.Errorf` result does (`wrapPrev = true`, `%w`) or does not
wrap the previous error. -/
inductive WrapOp where
  | wrap
  | wrapWithFrameSkips (k : Nat)
  | wrapWithStack (st : Stack)
  | wrapWithoutExtraStack
  | wrapWithFrameSkipsWithoutExtraStack (k : Nat)
  | errorf (msg : String) (wrapPrev : Bool)
  | fromRecover

/-- Apply one entry point to an error, with the capture collaborator for that
call. -/
def applyOp (capture : Nat → Stack) (op : WrapOp) (e : GoError) : Option GoError :=
  match op with
  | .wrap => Wrap capture (some e)
  | .wrapWithFrameSkips k => WrapWithFrameSkips capture (some e) k
  | .wrapWithStack st => WrapWithStack capture (some e) st
  | .wrapWithoutExtraStack => WrapWithoutExtraStack capture (some e)
  | .wrapWithFrameSkipsWithoutExtraStack k =>
    WrapWithFrameSkipsWithoutExtraStack capture (some e) k
  | .errorf msg wrapPrev =>
    Errorf capture (if wrapPrev then .wrapper msg e else .base msg)
  | .fromRecover => FromRecover capture (some e)

/-- Arbitrarily many nested wrap calls, each with its own capture outcome. -/
def iterOps : List (WrapOp × (Nat → Stack)) → GoError → Option GoError
  | [], e => some e
  | c :: cs, e =>
    match applyOp c.2 c.1 e with
    | none => none
    | some r => iterOps cs r

/-- The one-level flattening invariant on a Go error value: if it is a
`*stackError`, its `Err` field is not itself a `*stackError`. -/
def topFlat : GoError → Bool
  | .stackError inner _ _ => !isStackError inner
  | _ => true

/-- `stackError.MarshalJSON` (error.go:62-64) returns `json.Marshal(se)`;
`encoding/json`'s `Marshal`, given a value implementing `json.Marshaler`
(which `*stackError` does), calls that value's `MarshalJSON`.  One unit of
fuel stands for one round of this two-step cycle; no base case is ever
reached.  (`UnmarshalJSON`, error.go:66-68, has the same shape with
`json.Unmarshal(data, se)`.) -/
def marshalCallDepth : Nat → GoError → Option (List Char)
  | 0, _ => none
  | n + 1, se => marshalCallDepth n se

/-! ### Definitions written from the claims' words (for refinement checks) -/

/-- The rendering of one stack as claim C5 describes it: the stack between its
own pair of divider lines. -/
def claimBlockC5 (st : Stack) : List Char :=
  stackDivider.data ++ '\n' :: Stack.Format st ++ '\n' :: stackDivider.data

/-- The Stack-Set rendering claim C5 describes: one divider pair per stack, a
blank line between consecutive stacks. -/
def claimFormatC5 : Stacks → List Char
  | [] => []
  | [st] => claimBlockC5 st
  | st :: rest => claimBlockC5 st ++ '\n' :: '\n' :: claimFormatC5 rest

/-! ### Well-formedness used by the amended round-trip statements -/

/-- A field string that survives text formatting and re-parsing: non-empty,
free of line breaks, not starting with space or tab. -/
def wfName (s : String) : Bool :=
  !s.data.isEmpty && s.data.all (fun c => c != '\n' && c != '\r') &&
    !isWsChar (s.data.headD ' ')

/-- A frame whose text rendering parses back to itself. -/
def wfFrame (f : Frame) : Bool :=
  wfName f.Function && wfName f.File &&
    decide (0 ≤ f.Line) && decide (f.Line ≤ 2147483647)

/-- A stack that is non-empty after the runtime-frame trim, with well-formed
trimmed frames. -/
def wfStack (st : Stack) : Bool :=
  !(trimStack st).isEmpty && (trimStack st).all wfFrame

/-- A Stack-Set all of whose stacks are well-formed. -/
def wfStacks (s : Stacks) : Bool := s.all wfStack

/-- The two lines one frame contributes to the rendering: the function line,
then the indented `file:line` line. -/
def frameLinesPair (f : Frame) : List (List Char) :=
  [f.Function.data, '\t' :: (f.File.data ++ ':' :: intText f.Line)]

/-- The lines of one stack's rendering: per trimmed frame, the function line
followed by the indented `file:line` line. -/
def stackLines (st : Stack) : List (List Char) :=
  ((trimStack st).map frameLinesPair).flatten

/-- The lines following the opening divider in `Stacks.Format` output: per
stack its frame lines, each stack closed by a divider line shared with the
next stack. -/
def fmtTailLines : Stacks → List (List Char)
  | [] => [[]]
  | s => (s.map (fun st => stackLines st ++ [stackDivider.data])).flatten

/-! ## Claim C1 -/

/-- C1: the claim says structured encoding of a Wrapped-Error terminates,
produces the three-field object, and decodes back.  In the code,
`stackError.MarshalJSON` re-enters `json.Marshal` on its own receiver, so the
encode step recurses forever: no call depth ever yields an output (in Go this
is a stack overflow), for the claim's concrete triple in particular. -/
theorem claim_C1_marshal_diverges :
    ∀ (n : Nat) (se : GoError), marshalCallDepth n se = none ∧
      marshalCallDepth n (.stackError (.base "boom") [] []) = none := by
  intro n
  induction n with
  | zero => exact fun se => ⟨rfl, rfl⟩
  | succ n ih => exact fun se => ⟨(ih se).1, (ih se).2⟩

/-! ## Claim C10 -/

/-- C10: `SetError` stores the given error into the `Err` field unconditionally
(first conjunct), so for concrete Wrapped-Error instances `e` and `w` the inner
`Err` field after `e.SetError(w)` is itself a Wrapped-Error (remaining
conjuncts): the constructors' flattening invariant is not preserved. -/
theorem claim_C10_setError_breaks_invariant :
    (∀ (inner : GoError) (sts : List (List Frame)) (mf : List (String × String))
        (err : GoError), SetError (.stackError inner sts mf) err = .stackError err sts mf) ∧
    errField (SetError (.stackError (.base "a") [] []) (.stackError (.base "b") [] [])) =
      some (.stackError (.base "b") [] []) ∧
    isStackError (.stackError (.base "b") [] []) = true :=
  ⟨fun _ _ _ _ => rfl, rfl, rfl⟩

/-! ## Claim C2 -/

/-- C2, counterexample: the claim quantifies over every error value, but a
Wrapped-Error whose inner error is itself a Wrapped-Error (reachable through
`InPlaceEditError.SetError`, see C10) defeats the one-level flattening: the
engine stores `serr.Err` — still a Wrapped-Error — so the result of `Wrap`
violates the claimed invariant. -/
theorem claim_C2_counterexample :
    (Wrap (fun _ => [])
        (some (.stackError (.stackError (.base "x") [] []) [] []))).bind errField =
      some (.stackError (.base "x") [] []) ∧
    isStackError (.stackError (.base "x") [] []) = true :=
  ⟨rfl, rfl⟩

/-- `new` always returns a `*stackError`, and its `Err` field is not a
`*stackError` provided the input satisfies the one-level invariant. -/
lemma newErr_some_stackError (capture : Nat → Stack) (e : GoError) (sk : Nat)
    (add : Bool) (ns : List Stack) :
    ∃ inner sts mf,
      newErr capture (some e) sk add ns = some (.stackError inner sts mf) ∧
        (topFlat e = true → isStackError inner = false) := by
  cases e with
  | base msg => exact ⟨_, _, _, rfl, fun _ => rfl⟩
  | wrapper msg inner => exact ⟨_, _, _, rfl, fun _ => rfl⟩
  | tracer msg st => exact ⟨_, _, _, rfl, fun _ => rfl⟩
  | tracerWrap msg st inner => exact ⟨_, _, _, rfl, fun _ => rfl⟩
  | stackError inner sts mf =>
    refine ⟨inner, _, _, rfl, fun h => ?_⟩
    simpa [topFlat] using h

/-- Every public wrap entry point, applied to an error satisfying the one-level
invariant, returns a Wrapped-Error that satisfies it again and whose inner
error is not a Wrapped-Error. -/
lemma applyOp_topFlat (capture : Nat → Stack) (op : WrapOp) (e : GoError)
    (he : topFlat e = true) :
    ∃ r, applyOp capture op e = some r ∧ topFlat r = true ∧ isStackError r = true ∧
      ∀ i, errField r = some i → isStackError i = false := by
  have core : ∀ (e' : GoError) (sk : Nat) (add : Bool) (ns : List Stack),
      topFlat e' = true →
      ∃ r, newErr capture (some e') sk add ns = some r ∧ topFlat r = true ∧
        isStackError r = true ∧ ∀ i, errField r = some i → isStackError i = false := by
    intro e' sk add ns he'
    obtain ⟨inner, sts, mf, heq, hinner⟩ := newErr_some_stackError capture e' sk add ns
    refine ⟨_, heq, ?_, rfl, ?_⟩
    · simp [topFlat, hinner he']
    · intro i hi
      simp only [errField, Option.some.injEq] at hi
      simpa [hi] using hinner he'
  cases op with
  | wrap => exact core e 1 true [] he
  | wrapWithFrameSkips k => exact core e (1 + k) true [] he
  | wrapWithStack st => exact core e 1 true [st] he
  | wrapWithoutExtraStack => exact core e 1 false [] he
  | wrapWithFrameSkipsWithoutExtraStack k => exact core e (1 + k) false [] he
  | errorf msg wrapPrev =>
    cases wrapPrev with
    | true => exact core (.wrapper msg e) 1 true [] rfl
    | false => exact core (.base msg) 1 true [] rfl
  | fromRecover => exact core e 3 true [] he

/-- C2, amended: for every error value whose top-level Wrapped-Error structure
already satisfies the one-level invariant (which everything the constructors
produce does, absent `SetError`), arbitrarily many nested calls to the wrap
entry points yield a Wrapped-Error whose inner `Err` field is never itself a
Wrapped-Error, and the invariant is preserved throughout. -/
theorem claim_C2_amended (ops : List (WrapOp × (Nat → Stack))) (e : GoError)
    (he : topFlat e = true) :
    ∃ r, iterOps ops e = some r ∧ topFlat r = true ∧
      (ops ≠ [] → isStackError r = true ∧
        ∀ i, errField r = some i → isStackError i = false) := by
  induction ops generalizing e with
  | nil => exact ⟨e, rfl, he, fun h => absurd rfl h⟩
  | cons c cs ih =>
    obtain ⟨r, hr, hrflat, hrstack, hrinner⟩ := applyOp_topFlat c.2 c.1 e he
    obtain ⟨r2, hr2, hr2flat, hr2rest⟩ := ih r hrflat
    refine ⟨r2, ?_, hr2flat, fun _ => ?_⟩
    · simpa [iterOps, hr] using hr2
    · cases cs with
      | nil =>
        have : r2 = r := by simpa [iterOps] using hr2.symm
        exact this ▸ ⟨hrstack, hrinner⟩
      | cons c2 cs2 => exact hr2rest (by simp)

/-- Witness for C2 (amended), at a concrete error and one concrete `Wrap`. -/
theorem claim_C2_amended_witness :
    topFlat (.base "x") = true ∧
    ∃ r, iterOps [(WrapOp.wrap, fun _ => [])] (.base "x") = some r ∧
      topFlat r = true ∧
      (([(WrapOp.wrap, fun _ => ([] : Stack))] :
          List (WrapOp × (Nat → Stack))) ≠ [] → isStackError r = true ∧
        ∀ i, errField r = some i → isStackError i = false) :=
  ⟨rfl, claim_C2_amended [(WrapOp.wrap, fun _ => [])] (.base "x") rfl⟩

/-! ## Claim C7 -/

/-- The stacks stored by `new` are the dedup of the selection step applied to
the walk's accumulator and the captured current stack. -/
lemma stacksOf_newErr (capture : Nat → Stack) (e : GoError) (sk : Nat)
    (add : Bool) (ns : List Stack) :
    stacksOf (newErr capture (some e) sk add ns) =
      some (dedupStacks (selectStacks ns (chainWalk e).1 add (capture (1 + sk)))) := by
  cases e <;> rfl

/-- C7: stack selection in `new`.  With explicit stacks they are prepended to
the walk's accumulation and the capture collaborator is never consulted (the
result does not depend on it); with none, a single fresh capture
`capture (1 + skippedFrames)` is prepended exactly when the walk accumulated
nothing or a forced capture was requested; otherwise the accumulated stacks
are used as-is and the capture collaborator is again never consulted. -/
theorem claim_C7_stack_selection (capture capture' : Nat → Stack) (e : GoError)
    (sk : Nat) (add : Bool) (ns : List Stack) :
    (ns ≠ [] →
      stacksOf (newErr capture (some e) sk add ns) =
        some (dedupStacks (ns ++ (chainWalk e).1)) ∧
      newErr capture (some e) sk add ns = newErr capture' (some e) sk add ns) ∧
    (ns = [] → ((chainWalk e).1 = [] ∨ add = true) →
      stacksOf (newErr capture (some e) sk add ns) =
        some (dedupStacks (capture (1 + sk) :: (chainWalk e).1))) ∧
    (ns = [] → (chainWalk e).1 ≠ [] → add = false →
      stacksOf (newErr capture (some e) sk add ns) =
        some (dedupStacks (chainWalk e).1) ∧
      newErr capture (some e) sk add ns = newErr capture' (some e) sk add ns) := by
  refine ⟨fun hns => ⟨?_, ?_⟩, fun hns hacc => ?_, fun hns hacc hadd => ⟨?_, ?_⟩⟩
  · rw [stacksOf_newErr]
    have : 0 < ns.length := List.length_pos.mpr hns
    simp [selectStacks, this]
  · have : 0 < ns.length := List.length_pos.mpr hns
    cases e <;> simp [newErr, selectStacks, this]
  · rw [stacksOf_newErr]
    subst hns
    rcases hacc with h | h
    · simp [selectStacks, h]
    · simp [selectStacks, h]
  · rw [stacksOf_newErr]
    subst hns hadd
    have h0 : ¬ (chainWalk e).1.length = 0 := by
      simpa [List.length_eq_zero] using hacc
    simp [selectStacks, h0]
  · subst hns hadd
    have h0 : ¬ (chainWalk e).1.length = 0 := by
      simpa [List.length_eq_zero] using hacc
    cases e <;> simp_all [newErr, selectStacks, chainWalk]

/-- Witness for C7, exercising the explicit-stacks branch at concrete inputs. -/
theorem claim_C7_witness :
    stacksOf (newErr (fun n => [⟨"c", "c.go", (n : Int)⟩])
        (some (.base "x")) 1 true [[⟨"s", "s.go", 1⟩]]) =
      some (dedupStacks ([[⟨"s", "s.go", 1⟩]] ++ (chainWalk (.base "x")).1)) ∧
    newErr (fun n => [⟨"c", "c.go", (n : Int)⟩])
        (some (.base "x")) 1 true [[⟨"s", "s.go", 1⟩]] =
      newErr (fun _ => []) (some (.base "x")) 1 true [[⟨"s", "s.go", 1⟩]] :=
  (claim_C7_stack_selection (fun n => [⟨"c", "c.go", (n : Int)⟩])
    (fun _ => []) (.base "x") 1 true [[⟨"s", "s.go", 1⟩]]).1 (by decide)

/-! ## Claims C3 and C9 -/

/-- The per-position condition that the `IsParentOf` loop enforces at relative
distance `d` from the outer end (`d = 1` is `parent`'s outermost frame,
`d = parent.length` its innermost). -/
def ipoCond (parent child : List Frame) (d : Nat) : Prop :=
  (parent.getD (parent.length - d) default).Function =
      (child.getD (child.length - d) default).Function ∧
  (parent.getD (parent.length - d) default).File =
      (child.getD (child.length - d) default).File ∧
  (d ≠ parent.length →
    (parent.getD (parent.length - d) default).Line =
      (child.getD (child.length - d) default).Line) ∧
  (d = parent.length →
    (child.getD (child.length - d) default).Line ≤
      (parent.getD (parent.length - d) default).Line)

lemma ipoGo_zero (parent child : List Frame) (off : Nat) :
    ipoGo parent child 0 off = true := rfl

lemma ipoGo_succ (parent child : List Frame) (rem off : Nat) :
    ipoGo parent child (rem + 1) off =
      (if (parent.getD (parent.length - off) default).Function ≠
            (child.getD (child.length - off) default).Function ∨
          (parent.getD (parent.length - off) default).File ≠
            (child.getD (child.length - off) default).File ∨
          (parent.getD (parent.length - off) default).Line <
            (child.getD (child.length - off) default).Line then false
      else if off ≠ parent.length ∧
          (parent.getD (parent.length - off) default).Line ≠
            (child.getD (child.length - off) default).Line then false
      else ipoGo parent child rem (off + 1)) := rfl

lemma ipoGo_eq_true_iff (parent child : List Frame) :
    ∀ rem off, rem + off = parent.length + 1 →
      (ipoGo parent child rem off = true ↔
        ∀ d, off ≤ d → d ≤ parent.length → ipoCond parent child d) := by
  intro rem
  induction rem with
  | zero =>
    intro off hoff
    rw [ipoGo_zero]
    refine iff_of_true rfl ?_
    intro d hd hd2
    omega
  | succ rem ih =>
    intro off hoff
    have hoffle : off ≤ parent.length := by omega
    rw [ipoGo_succ]
    by_cases h1 : (parent.getD (parent.length - off) default).Function ≠
          (child.getD (child.length - off) default).Function ∨
        (parent.getD (parent.length - off) default).File ≠
          (child.getD (child.length - off) default).File ∨
        (parent.getD (parent.length - off) default).Line <
          (child.getD (child.length - off) default).Line
    · rw [if_pos h1]
      refine iff_of_false (by simp) ?_
      intro hall
      obtain ⟨hfn, hfile, hmid, hlast⟩ := hall off (le_refl off) hoffle
      rcases h1 with h | h | h
      · exact h hfn
      · exact h hfile
      · by_cases hoe : off = parent.length
        · exact absurd (hlast hoe) (by omega)
        · exact absurd (hmid hoe) (by omega)
    · rw [if_neg h1]
      push_neg at h1
      by_cases h2 : off ≠ parent.length ∧
          (parent.getD (parent.length - off) default).Line ≠
            (child.getD (child.length - off) default).Line
      · rw [if_pos h2]
        refine iff_of_false (by simp) ?_
        intro hall
        exact h2.2 ((hall off (le_refl off) hoffle).2.2.1 h2.1)
      · rw [if_neg h2]
        have hcondoff : ipoCond parent child off := by
          refine ⟨h1.1, h1.2.1, fun hne => ?_, fun _ => h1.2.2⟩
          rcases not_and_or.mp h2 with h | h
          · exact absurd hne h
          · have hle := h1.2.2
            have heq := not_not.mp h
            omega
        rw [ih (off + 1) (by omega)]
        constructor
        · intro hall d hd hd2
          rcases Nat.lt_or_ge off d with h | h
          · exact hall d (by omega) hd2
          · have hde : d = off := by omega
            exact hde ▸ hcondoff
        · intro hall d hd hd2
          exact hall d (by omega) hd2

/-- Characterization of `IsParentOf` (shared by the proofs for C3 and C9). -/
lemma isParentOf_eq_true_iff (parent child : Stack) :
    IsParentOf parent child = true ↔
      (parent.length ≤ child.length ∧
        ∀ d, 1 ≤ d → d ≤ parent.length → ipoCond parent child d) := by
  unfold IsParentOf
  by_cases h : child.length < parent.length
  · rw [if_pos h]
    refine iff_of_false (by simp) ?_
    intro hall
    omega
  · rw [if_neg h, ipoGo_eq_true_iff parent child parent.length 1 (by omega)]
    constructor
    · exact fun hall => ⟨by omega, hall⟩
    · exact fun hall => hall.2

/-- C3: `IsParentOf(parent, child)` is true exactly when `child` has at least
as many frames as `parent` and, walking positions from `parent`'s outermost
frame inward and comparing against `child`'s frame at the same distance from
its own outer end, the function and source-location identifiers agree at every
position, the line numbers agree exactly at every position except `parent`'s
innermost frame, and there `parent`'s line number is at least `child`'s. -/
theorem claim_C3_isParentOf_contract (parent child : Stack) :
    IsParentOf parent child = true ↔
      (parent.length ≤ child.length ∧
        ∀ d, 1 ≤ d → d ≤ parent.length →
          ((parent.getD (parent.length - d) default).Function =
              (child.getD (child.length - d) default).Function ∧
            (parent.getD (parent.length - d) default).File =
              (child.getD (child.length - d) default).File ∧
            (d ≠ parent.length →
              (parent.getD (parent.length - d) default).Line =
                (child.getD (child.length - d) default).Line) ∧
            (d = parent.length →
              (child.getD (child.length - d) default).Line ≤
                (parent.getD (parent.length - d) default).Line))) :=
  isParentOf_eq_true_iff parent child

lemma frame_eq_of_fields {f g : Frame} (h1 : f.Function = g.Function)
    (h2 : f.File = g.File) (h3 : f.Line = g.Line) : f = g := by
  cases f; cases g; simp_all

/-- C9: mutual parenthood forces frame-for-frame equality. -/
theorem claim_C9_antisymmetry (A B : Stack) (h1 : IsParentOf A B = true)
    (h2 : IsParentOf B A = true) : A = B := by
  rw [isParentOf_eq_true_iff] at h1 h2
  obtain ⟨hlen1, hall1⟩ := h1
  obtain ⟨hlen2, hall2⟩ := h2
  have hlen : A.length = B.length := le_antisymm hlen1 hlen2
  apply List.ext_getElem hlen
  intro i hiA hiB
  set d := A.length - i with hd
  have hd1 : 1 ≤ d := by omega
  have hdA : d ≤ A.length := by omega
  have hdB : d ≤ B.length := by omega
  have hiA' : A.length - d = i := by omega
  have hiB' : B.length - d = i := by omega
  have hgA : A.getD (A.length - d) default = A[i] := by
    rw [hiA', List.getD_eq_getElem?_getD, List.getElem?_eq_getElem hiA]
    rfl
  have hgB : B.getD (B.length - d) default = B[i] := by
    rw [hiB', List.getD_eq_getElem?_getD, List.getElem?_eq_getElem hiB]
    rfl
  obtain ⟨c1fn, c1file, c1mid, c1last⟩ := hall1 d hd1 hdA
  obtain ⟨c2fn, c2file, c2mid, c2last⟩ := hall2 d hd1 hdB
  rw [hgA, hgB] at c1fn c1file c1mid c1last
  rw [hgA, hgB] at c2fn c2file c2mid c2last
  refine frame_eq_of_fields c1fn c1file ?_
  by_cases hdl : d = A.length
  · have hub := c1last hdl
    have hlb := c2last (by omega)
    omega
  · exact c1mid hdl

/-- Witness for C9 at a concrete pair of mutually-parent stacks. -/
theorem claim_C9_witness :
    IsParentOf [⟨"f", "a.go", 10⟩] [⟨"f", "a.go", 10⟩] = true ∧
      ([⟨"f", "a.go", 10⟩] : Stack) = [⟨"f", "a.go", 10⟩] :=
  ⟨by decide, claim_C9_antisymmetry _ _ (by decide) (by decide)⟩

/-! ## Claims C6 and C8 -/

lemma consoleLoop_append (stks : Stacks) (bs : List (List Char)) :
    consoleLoop stks bs = stks ++ consoleLoop [] bs := by
  induction bs generalizing stks with
  | nil => simp [consoleLoop]
  | cons b bs ih =>
    by_cases h : (scanPairs (splitNl b)).length = 0
    · rw [consoleLoop, if_pos h, consoleLoop, if_pos h, ih]
    · rw [consoleLoop, if_neg h, consoleLoop, if_neg h]
      simp only [List.nil_append]
      rw [ih, ih [scanPairs (splitNl b)]]
      simp

lemma consoleLoop_of_no_match (stks : Stacks) (bs : List (List Char))
    (h : ∀ b ∈ bs, scanPairs (splitNl b) = []) : consoleLoop stks bs = stks := by
  induction bs with
  | nil => rfl
  | cons b bs ih =>
    rw [consoleLoop, if_pos (by simp [h b (by simp)])]
    exact ih (fun b' hb' => h b' (by simp [hb']))

/-- C6, counterexample: the input `"[[]]"` is valid JSON, so in Go the decode
attempt succeeds with `stacks = [[]]` (one empty Stack) but is not accepted by
the guard; the text matches nothing in console format; yet `ParseStacks`
returns the leftover `[[]]`, a non-empty Stack-Set, because the console path
appends to the variable the decode already filled. -/
theorem claim_C6_counterexample :
    ¬ goAcceptGuard [[]] ∧
    (∀ b ∈ splitNl2 ("[[]]".data.filter (fun c => c != '\r')),
      scanPairs (splitNl b) = []) ∧
    ParseStacksWith false [[]] "[[]]".data = [[]] ∧
    ([[]] : Stacks) ≠ [] :=
  ⟨by decide, by decide, by decide, by decide⟩

/-- C6, amended: when the structured decode attempt is not accepted *and left
the accumulator empty* (which is the case whenever the input is not
syntactically valid JSON, since `json.Unmarshal` writes nothing on a syntax
error), and no block contains a two-line group matching the console pattern,
`ParseStacks` returns the empty Stack-Set — and, being a total function, it
signals no error. -/
theorem claim_C6_amended (jsonErr : Bool) (s : List Char)
    (h : ∀ b ∈ splitNl2 (s.filter (fun c => c != '\r')), scanPairs (splitNl b) = []) :
    ParseStacksWith jsonErr [] s = [] := by
  unfold ParseStacksWith
  rw [if_neg (by rintro ⟨-, h0, -⟩; simp at h0)]
  exact consoleLoop_of_no_match [] _ h

/-- Witness for C6 (amended) on concrete unparsable text. -/
theorem claim_C6_amended_witness :
    ParseStacksWith true [] "hello".data = [] :=
  claim_C6_amended true "hello".data (by decide)

/-- The decode result of the C8 counterexample input: Go's `json.Unmarshal`
decodes it without error into one empty Stack followed by one Stack holding
the frame `{Function: "f", File: "a", Line: 3}` (JSON allows raw newlines and
tabs between tokens; `runtime.Frame` field names match case-insensitively). -/
def c8Decoded : Stacks := [[], [⟨"f", "a", 3⟩]]

/-- The C8 counterexample input: valid JSON whose layout also contains a
console-pattern two-line group (`"[[],[{...\n\t"line":3\n}]]"`). -/
def c8Input : List Char :=
  "[[],[\x7b\"file\":\"a\",\"function\":\"f\",\n\t\"line\":3\n\x7d]]".data

/-- C8, counterexample: the decode of `c8Input` succeeds and yields a Stack
with a Frame whose source-location field is non-empty (the claim's acceptance
condition), yet `ParseStacks` does not return the decoded Stack-Set without
console parsing: the guard at stack.go:201 looks only at the *first* stack's
*first* frame, rejects (the first stack is empty), and the console scan then
appends a further stack extracted from the JSON text itself. -/
theorem claim_C8_counterexample :
    (∃ st ∈ c8Decoded, ∃ fr ∈ st, fr.File ≠ "") ∧
    ParseStacksWith false c8Decoded c8Input ≠ c8Decoded :=
  ⟨by decide, by decide⟩

/-- C8, amended: the decode attempt is accepted iff it succeeded and its
*first* Stack is non-empty with a non-empty source-location field on its
*first* Frame; only then is the decoded Stack-Set returned with no console
parsing, and otherwise the console-parse results are appended after whatever
the decode attempt left in the accumulator. -/
theorem claim_C8_amended (jsonErr : Bool) (stks0 : Stacks) (s : List Char) :
    (goAcceptGuard stks0 ↔ ∃ fr rest rests, stks0 = (fr :: rest) :: rests ∧ fr.File ≠ "") ∧
    (jsonErr = false → goAcceptGuard stks0 → ParseStacksWith jsonErr stks0 s = stks0) ∧
    (¬ (jsonErr = false ∧ goAcceptGuard stks0) →
      ParseStacksWith jsonErr stks0 s =
        stks0 ++ consoleLoop [] (splitNl2 (s.filter (fun c => c != '\r')))) := by
  refine ⟨⟨?_, ?_⟩, fun hj hg => ?_, fun hn => ?_⟩
  · rintro ⟨h1, h2, h3⟩
    match stks0 with
    | [] => simp at h1
    | [] :: rests => simp [List.getD] at h2
    | (fr :: rest) :: rests =>
      refine ⟨fr, rest, rests, rfl, ?_⟩
      simpa [List.getD] using h3
  · rintro ⟨fr, rest, rests, rfl, hfr⟩
    exact ⟨by simp, by simp [List.getD], by simpa [List.getD] using hfr⟩
  · unfold ParseStacksWith
    rw [if_pos ⟨hj, hg⟩]
  · unfold ParseStacksWith
    rw [if_neg hn, consoleLoop_append]

/-- Witness for C8 (amended), exercising the accepted branch concretely. -/
theorem claim_C8_amended_witness :
    ParseStacksWith false [[⟨"f", "a.go", 1⟩]] "x".data = [[⟨"f", "a.go", 1⟩]] :=
  (claim_C8_amended false [[⟨"f", "a.go", 1⟩]] "x".data).2.1 rfl (by decide)

/-! ## Claims C4 and C5: character and digit lemmas -/

lemma wsChar_cases {c : Char} (h : isWsChar c = true) : c = ' ' ∨ c = '\t' := by
  simp only [isWsChar, Bool.or_eq_true, beq_iff_eq] at h
  exact h

lemma digitChar_spec : ∀ d, d < 10 →
    isDigitChar (natTextAux.digitChar d) = true ∧
      digitCharVal (natTextAux.digitChar d) = d := by
  intro d hd
  interval_cases d <;> exact ⟨by decide, by decide⟩

lemma isDigitChar_props {c : Char} (h : isDigitChar c = true) :
    isWsChar c = false ∧ c ≠ '\n' ∧ c ≠ '\r' ∧ c ≠ ':' := by
  refine ⟨?_, ?_, ?_, ?_⟩
  · cases hw : isWsChar c
    · rfl
    · rcases wsChar_cases hw with rfl | rfl <;> exact absurd h (by decide)
  · rintro rfl; exact absurd h (by decide)
  · rintro rfl; exact absurd h (by decide)
  · rintro rfl; exact absurd h (by decide)

lemma digitsVal_append (xs : List Char) (c : Char) :
    digitsVal (xs ++ [c]) = 10 * digitsVal xs + digitCharVal c := by
  unfold digitsVal
  rw [List.foldl_append]
  simp [Nat.mul_comm]

lemma natTextAux_succ (fuel n : Nat) :
    natTextAux (fuel + 1) n =
      if n < 10 then [natTextAux.digitChar n]
      else natTextAux fuel (n / 10) ++ [natTextAux.digitChar (n % 10)] := rfl

lemma natTextAux_spec : ∀ fuel n, n < fuel →
    natTextAux fuel n ≠ [] ∧ (∀ c ∈ natTextAux fuel n, isDigitChar c = true) ∧
      digitsVal (natTextAux fuel n) = n := by
  intro fuel
  induction fuel with
  | zero => intro n hn; omega
  | succ fuel ih =>
    intro n hn
    by_cases h10 : n < 10
    · rw [natTextAux_succ, if_pos h10]
      obtain ⟨hd, hv⟩ := digitChar_spec n h10
      refine ⟨by simp, ?_, ?_⟩
      · intro c hc
        rw [List.mem_singleton.mp hc]
        exact hd
      · simp [digitsVal, hv]
    · rw [natTextAux_succ, if_neg h10]
      have hrec : n / 10 < fuel := by
        have : n / 10 < n := Nat.div_lt_self (by omega) (by omega)
        omega
      obtain ⟨hne, hall, hval⟩ := ih (n / 10) hrec
      obtain ⟨hd, hv⟩ := digitChar_spec (n % 10) (Nat.mod_lt _ (by omega))
      refine ⟨by simp, ?_, ?_⟩
      · intro c hc
        rcases List.mem_append.mp hc with h | h
        · exact hall c h
        · rw [List.mem_singleton.mp h]
          exact hd
      · rw [digitsVal_append, hval, hv]
        omega

lemma natText_spec (n : Nat) :
    natText n ≠ [] ∧ (∀ c ∈ natText n, isDigitChar c = true) ∧
      digitsVal (natText n) = n :=
  natTextAux_spec (n + 1) n (by omega)

lemma intText_of_nonneg {i : Int} (h : 0 ≤ i) : intText i = natText i.toNat := by
  unfold intText
  rw [if_neg (by omega)]

lemma parseGoInt32_intText {i : Int} (h0 : 0 ≤ i) (h1 : i ≤ 2147483647) :
    parseGoInt32 (intText i) = i := by
  rw [intText_of_nonneg h0]
  simp only [parseGoInt32, (natText_spec i.toNat).2.2]
  rw [if_pos (by omega : i.toNat ≤ 2147483647)]
  exact Int.toNat_of_nonneg h0

lemma takeWhile_append_stop {p : Char → Bool} (xs : List Char) (y : Char) (ys : List Char)
    (hxs : ∀ a ∈ xs, p a = true) (hy : p y = false) :
    (xs ++ y :: ys).takeWhile p = xs ∧ (xs ++ y :: ys).dropWhile p = y :: ys := by
  induction xs with
  | nil => simp [List.takeWhile_cons, List.dropWhile_cons, hy]
  | cons a xs ih =>
    have ha : p a = true := hxs a (by simp)
    have hrest := ih (fun b hb => hxs b (by simp [hb]))
    simp [List.takeWhile_cons, List.dropWhile_cons, ha, hrest.1, hrest.2]

lemma wfName_props {s : String} (h : wfName s = true) :
    s.data ≠ [] ∧ (∀ c ∈ s.data, c ≠ '\n' ∧ c ≠ '\r') ∧
      ∀ c cs, s.data = c :: cs → isWsChar c = false := by
  simp only [wfName, Bool.and_eq_true, Bool.not_eq_true', List.all_eq_true] at h
  obtain ⟨⟨h1, h2⟩, h3⟩ := h
  refine ⟨by simpa [List.isEmpty_iff] using h1, ?_, ?_⟩
  · intro c hc
    have := h2 c hc
    simp only [Bool.and_eq_true, bne_iff_ne] at this
    exact this
  · intro c cs hcons
    rw [hcons] at h3
    simpa using h3

/-! ## Claims C4 and C5: capture lemmas for the two regexp line shapes -/

lemma funcLineMatch_wfName (s : String) (h : wfName s = true) :
    funcLineMatch s.data = some s.data := by
  obtain ⟨hne, _, hhead⟩ := wfName_props h
  obtain ⟨c, cs, hcons⟩ := List.exists_cons_of_ne_nil hne
  have hc : isWsChar c = false := hhead c cs hcons
  rw [hcons]
  simp [funcLineMatch, List.takeWhile_cons, hc]

lemma locLineMatch_none_of_head_not_ws (l : List Char)
    (h : ∀ c cs, l = c :: cs → isWsChar c = false) : locLineMatch l = none := by
  cases l with
  | nil => rfl
  | cons c cs =>
    have hc : isWsChar c = false := h c cs rfl
    simp [locLineMatch, hc]

lemma locLineMatch_capture (fileStr : String) (ds : List Char)
    (hfile : wfName fileStr = true) (hne : ds ≠ [])
    (hdig : ∀ c ∈ ds, isDigitChar c = true) :
    locLineMatch ('\t' :: (fileStr.data ++ ':' :: ds)) = some (fileStr.data, ds) := by
  obtain ⟨hfne, _, hfhead⟩ := wfName_props hfile
  obtain ⟨fc, fcs, hfcons⟩ := List.exists_cons_of_ne_nil hfne
  have hrev : ('\t' :: (fileStr.data ++ ':' :: ds)).reverse
      = ds.reverse ++ ':' :: (fileStr.data.reverse ++ ['\t']) := by
    simp
  have hdsrev : ∀ a ∈ ds.reverse, isDigitChar a = true := by
    intro a ha
    exact hdig a (List.mem_reverse.mp ha)
  obtain ⟨d0, drest, hdcons⟩ :=
    List.exists_cons_of_ne_nil (by simpa using hne : ds.reverse ≠ [])
  have hd0 : isDigitChar d0 = true := hdsrev d0 (by rw [hdcons]; simp)
  have hd0ws : isWsChar d0 = false := (isDigitChar_props hd0).1
  -- no trailing whitespace: dropWhile isWsChar on the reverse is the identity
  have hws : (('\t' :: (fileStr.data ++ ':' :: ds)).reverse).dropWhile isWsChar
      = ds.reverse ++ ':' :: (fileStr.data.reverse ++ ['\t']) := by
    rw [hrev, hdcons]
    simp [List.dropWhile_cons, hd0ws]
  -- the digit run and the rest
  have hsplit := takeWhile_append_stop (p := isDigitChar) ds.reverse ':'
    (fileStr.data.reverse ++ ['\t']) hdsrev (by decide)
  have htake : (ds.reverse ++ ':' :: (fileStr.data.reverse ++ ['\t'])).takeWhile isDigitChar
      = ds.reverse := hsplit.1
  have hdrop : (ds.reverse ++ ':' :: (fileStr.data.reverse ++ ['\t'])).dropWhile isDigitChar
      = ':' :: (fileStr.data.reverse ++ ['\t']) := hsplit.2
  have hbefore : (fileStr.data.reverse ++ ['\t']).reverse = '\t' :: fileStr.data := by
    simp
  have htabws : isWsChar '\t' = true := by decide
  have hP : ('\t' :: fileStr.data).takeWhile isWsChar = ['\t'] := by
    rw [hfcons]
    simp [List.takeWhile_cons, hfhead fc fcs hfcons, htabws]
  have hlen : ¬ ('\t' :: fileStr.data).length < 2 := by
    rw [hfcons]
    simp
  have e1 : locLineMatch ('\t' :: (fileStr.data ++ ':' :: ds)) =
      locAfterWs (('\t' :: (fileStr.data ++ ':' :: ds)).reverse.dropWhile isWsChar) := by
    simp only [locLineMatch]
    rw [if_neg (by decide)]
  rw [e1, hws]
  unfold locAfterWs
  rw [htake, hdrop, if_neg (by rw [hdcons]; simp), List.reverse_reverse]
  simp only [locAfterDigits]
  rw [hbefore, hP]
  rw [if_neg hlen]
  rw [if_pos (by rw [hfcons]; simp)]
  simp [hP]

/-! ## Claims C4 and C5: the line scan -/

lemma scanPairsF_succ_cons (fuel : Nat) (l1 l2 : List Char) (rest : List (List Char)) :
    scanPairsF (fuel + 1) (l1 :: l2 :: rest) =
      match funcLineMatch l1, locLineMatch l2 with
      | some fc, some (fl, ds) =>
        { Function := String.mk fc, File := String.mk fl, Line := parseGoInt32 ds } ::
          scanPairsF fuel rest
      | _, _ => scanPairsF fuel (l2 :: rest) := rfl

lemma scanPairsF_fuel_irrel : ∀ f1 f2 ls, ls.length ≤ f1 → ls.length ≤ f2 →
    scanPairsF f1 ls = scanPairsF f2 ls := by
  intro f1
  induction f1 with
  | zero =>
    intro f2 ls h1 _
    have : ls = [] := by
      cases ls with
      | nil => rfl
      | cons a as => simp at h1
    subst this
    cases f2 <;> rfl
  | succ f1 ih =>
    intro f2 ls h1 h2
    cases ls with
    | nil => cases f2 <;> rfl
    | cons l1 rest =>
      cases rest with
      | nil =>
        cases f2 with
        | zero => simp at h2
        | succ f2 => rfl
      | cons l2 rest2 =>
        cases f2 with
        | zero => simp at h2
        | succ f2 =>
          rw [scanPairsF_succ_cons, scanPairsF_succ_cons]
          simp only [List.length_cons] at h1 h2
          cases hm1 : funcLineMatch l1 with
          | none => simp only [hm1]; exact ih f2 (l2 :: rest2) (by simp; omega) (by simp; omega)
          | some fc =>
            cases hm2 : locLineMatch l2 with
            | none =>
              simp only [hm1, hm2]
              exact ih f2 (l2 :: rest2) (by simp; omega) (by simp; omega)
            | some p =>
              simp only [hm1, hm2]
              rw [ih f2 rest2 (by omega) (by omega)]

lemma scanPairs_step_match {l1 l2 : List Char} {rest : List (List Char)}
    {fc fl ds : List Char} (h1 : funcLineMatch l1 = some fc)
    (h2 : locLineMatch l2 = some (fl, ds)) :
    scanPairs (l1 :: l2 :: rest) =
      { Function := String.mk fc, File := String.mk fl, Line := parseGoInt32 ds } ::
        scanPairs rest := by
  unfold scanPairs
  simp only [List.length_cons]
  rw [scanPairsF_succ_cons]
  simp only [h1, h2]
  rw [scanPairsF_fuel_irrel (rest.length + 1) rest.length rest (by omega) (by omega)]

lemma scanPairs_step_skip {l1 l2 : List Char} {rest : List (List Char)}
    (h2 : locLineMatch l2 = none) :
    scanPairs (l1 :: l2 :: rest) = scanPairs (l2 :: rest) := by
  unfold scanPairs
  simp only [List.length_cons]
  rw [scanPairsF_succ_cons]
  cases hm1 : funcLineMatch l1 <;> simp only [h2, hm1]

lemma scanPairs_single (l : List Char) : scanPairs [l] = [] := rfl

lemma scanPairs_nil : scanPairs [] = [] := rfl

/-! ## Claims C4 and C5: joining lines and splitting them back -/

/-- Lines joined by single newlines (the shape of `Stacks.Format` output). -/
def joinLines : List (List Char) → List Char
  | [] => []
  | [l] => l
  | l :: ls => l ++ '\n' :: joinLines ls

lemma joinLines_cons (l : List Char) (ls : List (List Char)) (h : ls ≠ []) :
    joinLines (l :: ls) = l ++ '\n' :: joinLines ls := by
  cases ls with
  | nil => exact absurd rfl h
  | cons m ms => rfl

lemma joinLines_append (xs ys : List (List Char)) (hx : xs ≠ []) (hy : ys ≠ []) :
    joinLines (xs ++ ys) = joinLines xs ++ '\n' :: joinLines ys := by
  induction xs with
  | nil => exact absurd rfl hx
  | cons x xs ih =>
    cases xs with
    | nil => simpa using joinLines_cons x ys hy
    | cons x2 xs2 =>
      rw [List.cons_append, joinLines_cons x ((x2 :: xs2) ++ ys) (by simp),
          joinLines_cons x (x2 :: xs2) (by simp), ih (by simp)]
      simp

lemma joinLines_chars {p : Char → Prop} (hnl : p '\n') (ls : List (List Char))
    (h : ∀ l ∈ ls, ∀ c ∈ l, p c) : ∀ c ∈ joinLines ls, p c := by
  induction ls with
  | nil => intro c hc; simp [joinLines] at hc
  | cons l ls ih =>
    cases ls with
    | nil =>
      intro c hc
      exact h l (by simp) c hc
    | cons m ms =>
      rw [joinLines_cons l (m :: ms) (by simp)]
      intro c hc
      rcases List.mem_append.mp hc with hc | hc
      · exact h l (by simp) c hc
      · rcases List.mem_cons.mp hc with rfl | hc
        · exact hnl
        · exact ih (fun l' hl' => h l' (by simp [hl'])) c hc

lemma splitNl_cons (c : Char) (rest : List Char) :
    splitNl (c :: rest) =
      if c = '\n' then [] :: splitNl rest
      else match splitNl rest with
        | [] => [[c]]
        | l :: ls => (c :: l) :: ls := rfl

lemma splitNl_noNl (l : List Char) (h : ∀ c ∈ l, c ≠ '\n') : splitNl l = [l] := by
  induction l with
  | nil => rfl
  | cons c rest ih =>
    rw [splitNl_cons, if_neg (h c (by simp)), ih (fun a ha => h a (by simp [ha]))]

lemma splitNl_line_append (l r : List Char) (h : ∀ c ∈ l, c ≠ '\n') :
    splitNl (l ++ '\n' :: r) = l :: splitNl r := by
  induction l with
  | nil => simp [splitNl_cons]
  | cons c l2 ih =>
    rw [List.cons_append, splitNl_cons, if_neg (by simpa using h c (by simp)),
        ih (fun a ha => h a (by simp [ha]))]

lemma splitNl_joinLines (ls : List (List Char)) (hne : ls ≠ [])
    (h : ∀ l ∈ ls, ∀ c ∈ l, c ≠ '\n') : splitNl (joinLines ls) = ls := by
  induction ls with
  | nil => exact absurd rfl hne
  | cons l ls ih =>
    cases ls with
    | nil => exact splitNl_noNl l (h l (by simp))
    | cons m ms =>
      rw [joinLines_cons l (m :: ms) (by simp),
          splitNl_line_append l _ (h l (by simp)),
          ih (by simp) (fun l' hl' => h l' (by simp [hl']))]

lemma splitNl2_noNl (l : List Char) (h : ∀ c ∈ l, c ≠ '\n') : splitNl2 l = [l] := by
  induction l with
  | nil => rfl
  | cons c rest ih =>
    rw [splitNl2.eq_2 c rest (fun r2 hc _ => h c (by simp) hc),
        ih (fun a ha => h a (by simp [ha]))]

lemma splitNl2_line_append (l : List Char) (c : Char) (r2 : List Char)
    (m : List Char) (ms : List (List Char)) (hl : ∀ a ∈ l, a ≠ '\n')
    (hc : c ≠ '\n') (hs : splitNl2 (c :: r2) = m :: ms) :
    splitNl2 (l ++ '\n' :: c :: r2) = (l ++ '\n' :: m) :: ms := by
  induction l with
  | nil =>
    rw [List.nil_append,
      splitNl2.eq_2 '\n' (c :: r2) (fun r _ hh2 => hc (List.cons_eq_cons.mp hh2).1),
      hs]
    rfl
  | cons a l2 ih =>
    rw [List.cons_append,
      splitNl2.eq_2 a _ (fun r hh1 _ => hl a (by simp) hh1),
      ih (fun x hx => hl x (by simp [hx]))]
    rfl

lemma joinLines_head_cons (m : List Char) (ms : List (List Char)) (m0 : Char)
    (mrest : List Char) (hm : m = m0 :: mrest) :
    ∃ tail, joinLines (m :: ms) = m0 :: tail := by
  cases ms with
  | nil => exact ⟨mrest, by simp [joinLines, hm]⟩
  | cons m2 ms2 =>
    refine ⟨mrest ++ '\n' :: joinLines (m2 :: ms2), ?_⟩
    rw [joinLines_cons m (m2 :: ms2) (by simp), hm]
    rfl

lemma splitNl2_joinLines (ls : List (List Char)) (hne : ls ≠ [])
    (hnl : ∀ l ∈ ls, ∀ c ∈ l, c ≠ '\n') (hle : ∀ l ∈ ls, l ≠ []) :
    splitNl2 (joinLines ls) = [joinLines ls] := by
  induction ls with
  | nil => exact absurd rfl hne
  | cons l ls ih =>
    cases ls with
    | nil => exact splitNl2_noNl l (hnl l (by simp))
    | cons m ms =>
      obtain ⟨m0, mrest, hm⟩ := List.exists_cons_of_ne_nil (hle m (by simp))
      have hm0 : m0 ≠ '\n' := hnl m (by simp) m0 (by rw [hm]; simp)
      obtain ⟨tail, htail⟩ := joinLines_head_cons m ms m0 mrest hm
      have hihs : splitNl2 (m0 :: tail) = (m0 :: tail) :: [] := by
        rw [← htail]
        exact ih (by simp) (fun l' hl' => hnl l' (by simp [hl']))
          (fun l' hl' => hle l' (by simp [hl']))
      rw [joinLines_cons l (m :: ms) (by simp), htail,
        splitNl2_line_append l m0 tail (m0 :: tail) [] (hnl l (by simp)) hm0 hihs]

/-! ## Claims C4 and C5: the line structure of `Stacks.Format` output -/

lemma frameText_eq (f : Frame) : frameText f = joinLines (frameLinesPair f) := rfl

lemma frameLinesPair_ne_nil (f : Frame) : frameLinesPair f ≠ [] := by
  simp [frameLinesPair]

lemma flatten_pairs_ne_nil (f : Frame) (fs : List Frame) :
    (((f :: fs).map frameLinesPair).flatten) ≠ [] := by
  simp [frameLinesPair]

lemma formatFrames_eq (fs : List Frame) (h : fs ≠ []) :
    formatFrames fs = joinLines ((fs.map frameLinesPair).flatten) := by
  induction fs with
  | nil => exact absurd rfl h
  | cons f fs ih =>
    cases fs with
    | nil => simpa [formatFrames] using frameText_eq f
    | cons f2 fs2 =>
      have step : formatFrames (f :: f2 :: fs2) =
          frameText f ++ '\n' :: formatFrames (f2 :: fs2) := rfl
      rw [step]
      conv_rhs => rw [List.map_cons, List.flatten_cons]
      rw [joinLines_append (frameLinesPair f) _ (frameLinesPair_ne_nil f)
          (flatten_pairs_ne_nil f2 fs2), ← frameText_eq f, ← ih (by simp)]

lemma stackLines_ne_nil (st : Stack) (h : trimStack st ≠ []) : stackLines st ≠ [] := by
  obtain ⟨f, fs, hf⟩ := List.exists_cons_of_ne_nil h
  unfold stackLines
  rw [hf]
  exact flatten_pairs_ne_nil f fs

lemma stackFormat_eq (st : Stack) (h : trimStack st ≠ []) :
    Stack.Format st = joinLines (stackLines st) := by
  unfold Stack.Format stackLines
  exact formatFrames_eq _ h

lemma fmtTailLines_cons (st : Stack) (s : Stacks) :
    fmtTailLines (st :: s) =
      (stackLines st ++ [stackDivider.data]) ++
        ((s.map (fun st2 => stackLines st2 ++ [stackDivider.data])).flatten) := by
  simp [fmtTailLines]

lemma fmtTailLines_ne_nil (s : Stacks) : fmtTailLines s ≠ [] := by
  cases s with
  | nil => simp [fmtTailLines]
  | cons st s2 =>
    rw [fmtTailLines_cons]
    simp

lemma fmtTailLines_eq_flatten (s : Stacks) (h : s ≠ []) :
    fmtTailLines s = (s.map (fun st => stackLines st ++ [stackDivider.data])).flatten := by
  cases s with
  | nil => exact absurd rfl h
  | cons st s2 => rw [fmtTailLines_cons]; simp

lemma formatStacksGo_eq (s : Stacks) (hwf : ∀ st ∈ s, trimStack st ≠ []) :
    formatStacksGo s = joinLines (fmtTailLines s) := by
  induction s with
  | nil => rfl
  | cons st s2 ih =>
    have htne : trimStack st ≠ [] := hwf st (by simp)
    cases s2 with
    | nil =>
      have step : formatStacksGo [st] = Stack.Format st ++ '\n' :: stackDivider.data := rfl
      rw [step, fmtTailLines_cons]
      simp only [List.map_nil, List.flatten_nil, List.append_nil]
      rw [joinLines_append (stackLines st) [stackDivider.data]
        (stackLines_ne_nil st htne) (by simp), stackFormat_eq st htne]
      rfl
    | cons st2 s3 =>
      have step : formatStacksGo (st :: st2 :: s3) =
          Stack.Format st ++ '\n' :: stackDivider.data ++ '\n' :: formatStacksGo (st2 :: s3) :=
        rfl
      rw [step, ih (fun x hx => hwf x (by simp [hx]))]
      conv_rhs => rw [fmtTailLines_cons, ← fmtTailLines_eq_flatten (st2 :: s3) (by simp)]
      rw [joinLines_append (stackLines st ++ [stackDivider.data]) _
          (by simp) (fmtTailLines_ne_nil (st2 :: s3)),
        joinLines_append (stackLines st) [stackDivider.data]
          (stackLines_ne_nil st htne) (by simp),
        stackFormat_eq st htne]
      show joinLines (stackLines st) ++ '\n' :: stackDivider.data ++
          '\n' :: joinLines (fmtTailLines (st2 :: s3)) =
        (joinLines (stackLines st) ++ '\n' :: joinLines [stackDivider.data]) ++
          '\n' :: joinLines (fmtTailLines (st2 :: s3))
      simp [List.append_assoc, joinLines]

lemma stacksFormat_eq (s : Stacks) (hwf : ∀ st ∈ s, trimStack st ≠ []) :
    Stacks.Format s = joinLines (stackDivider.data :: fmtTailLines s) := by
  unfold Stacks.Format
  rw [joinLines_cons _ _ (fmtTailLines_ne_nil s), formatStacksGo_eq s hwf]

/-! ## Claims C4 and C5: line well-formedness facts -/

lemma stackDivider_facts :
    stackDivider.data ≠ [] ∧ (∀ c ∈ stackDivider.data, c ≠ '\n' ∧ c ≠ '\r') ∧
      (∀ c cs, stackDivider.data = c :: cs → isWsChar c = false) := by
  refine ⟨by decide, by decide, ?_⟩
  intro c cs h
  have : stackDivider.data.headD ' ' = c := by rw [h]; rfl
  rw [← this]
  decide

lemma wfFrame_props {f : Frame} (h : wfFrame f = true) :
    wfName f.Function = true ∧ wfName f.File = true ∧
      0 ≤ f.Line ∧ f.Line ≤ 2147483647 := by
  simp only [wfFrame, Bool.and_eq_true, decide_eq_true_eq] at h
  exact ⟨h.1.1.1, h.1.1.2, h.1.2, h.2⟩

lemma wfStack_props {st : Stack} (h : wfStack st = true) :
    trimStack st ≠ [] ∧ ∀ f ∈ trimStack st, wfFrame f = true := by
  simp only [wfStack, Bool.and_eq_true, Bool.not_eq_true', List.all_eq_true,
    List.isEmpty_eq_false_iff_exists_mem] at h
  obtain ⟨h1, h2⟩ := h
  refine ⟨?_, h2⟩
  obtain ⟨x, hx⟩ := h1
  intro hnil
  rw [hnil] at hx
  simp at hx

lemma wfStacks_props {s : Stacks} (h : wfStacks s = true) :
    ∀ st ∈ s, trimStack st ≠ [] ∧ ∀ f ∈ trimStack st, wfFrame f = true := by
  intro st hst
  have : wfStack st = true := by
    simp only [wfStacks, List.all_eq_true] at h
    exact h st hst
  exact wfStack_props this

lemma frameLinesPair_facts {f : Frame} (h : wfFrame f = true) :
    ∀ l ∈ frameLinesPair f, l ≠ [] ∧ ∀ c ∈ l, c ≠ '\n' ∧ c ≠ '\r' := by
  obtain ⟨hfn, hfl, h0, h1⟩ := wfFrame_props h
  obtain ⟨hfn1, hfn2, _⟩ := wfName_props hfn
  obtain ⟨hfl1, hfl2, _⟩ := wfName_props hfl
  have hdig := (natText_spec f.Line.toNat).2.1
  intro l hl
  rcases List.mem_cons.mp hl with rfl | hl
  · exact ⟨hfn1, hfn2⟩
  · rcases List.mem_cons.mp hl with rfl | hl
    · refine ⟨by simp, ?_⟩
      intro c hc
      rcases List.mem_cons.mp hc with rfl | hc
      · exact ⟨by decide, by decide⟩
      · rcases List.mem_append.mp hc with hc | hc
        · exact hfl2 c hc
        · rcases List.mem_cons.mp hc with rfl | hc
          · exact ⟨by decide, by decide⟩
          · rw [intText_of_nonneg h0] at hc
            have := isDigitChar_props (hdig c hc)
            exact ⟨this.2.1, this.2.2.1⟩
    · simp at hl

lemma fmtLines_facts (s : Stacks) (hwf : wfStacks s = true) (hs : s ≠ []) :
    ∀ l ∈ stackDivider.data :: fmtTailLines s,
      l ≠ [] ∧ ∀ c ∈ l, c ≠ '\n' ∧ c ≠ '\r' := by
  intro l hl
  rcases List.mem_cons.mp hl with rfl | hl
  · exact ⟨stackDivider_facts.1, stackDivider_facts.2.1⟩
  · cases s with
    | nil => exact absurd rfl hs
    | cons st s2 =>
      rw [fmtTailLines_eq_flatten (st :: s2) (by simp)] at hl
      obtain ⟨block, hblock, hlblock⟩ := List.mem_flatten.mp hl
      obtain ⟨st2, hst2, hbeq⟩ := List.mem_map.mp hblock
      rw [← hbeq] at hlblock
      rcases List.mem_append.mp hlblock with hmem | hmem
      · obtain ⟨htne, hfr⟩ := wfStacks_props hwf st2 hst2
        unfold stackLines at hmem
        obtain ⟨pair, hpair, hlpair⟩ := List.mem_flatten.mp hmem
        obtain ⟨f, hf, hpeq⟩ := List.mem_map.mp hpair
        rw [← hpeq] at hlpair
        exact frameLinesPair_facts (hfr f hf) l hlpair
      · rw [List.mem_singleton.mp hmem]
        exact ⟨stackDivider_facts.1, stackDivider_facts.2.1⟩

/-! ## Claims C4 and C5: scanning the formatted lines -/

lemma scanPairs_frames (fs : List Frame) (rest : List (List Char))
    (hwf : ∀ f ∈ fs, wfFrame f = true) :
    scanPairs ((fs.map frameLinesPair).flatten ++ rest) = fs ++ scanPairs rest := by
  induction fs with
  | nil => simp
  | cons f fs ih =>
    obtain ⟨hfn, hfl, h0, h1⟩ := wfFrame_props (hwf f (by simp))
    have hcap1 := funcLineMatch_wfName f.Function hfn
    have hds := natText_spec f.Line.toNat
    have hcap2 : locLineMatch ('\t' :: (f.File.data ++ ':' :: intText f.Line)) =
        some (f.File.data, intText f.Line) := by
      rw [intText_of_nonneg h0]
      exact locLineMatch_capture f.File (natText f.Line.toNat) hfl hds.1 hds.2.1
    have hshape : ((f :: fs).map frameLinesPair).flatten ++ rest =
        f.Function.data :: ('\t' :: (f.File.data ++ ':' :: intText f.Line)) ::
          ((fs.map frameLinesPair).flatten ++ rest) := by
      simp [frameLinesPair]
    rw [hshape, scanPairs_step_match hcap1 hcap2, ih (fun g hg => hwf g (by simp [hg]))]
    congr 1
    rw [parseGoInt32_intText h0 h1]

lemma scanPairs_fmtTail (s : Stacks) (hwf : wfStacks s = true) :
    scanPairs (stackDivider.data ::
        (s.map (fun st => stackLines st ++ [stackDivider.data])).flatten) =
      (s.map trimStack).flatten := by
  induction s with
  | nil => rfl
  | cons st s2 ih =>
    obtain ⟨htne, hfr⟩ := wfStacks_props hwf st (by simp)
    obtain ⟨f0, fs0, hf0⟩ := List.exists_cons_of_ne_nil htne
    have hwfs2 : wfStacks s2 = true := by
      simp only [wfStacks, List.all_cons, Bool.and_eq_true] at hwf
      exact hwf.2
    have hf0wf := wfFrame_props (hfr f0 (by rw [hf0]; simp))
    have hsl : stackLines st = f0.Function.data ::
        ('\t' :: (f0.File.data ++ ':' :: intText f0.Line)) ::
          ((fs0.map frameLinesPair).flatten) := by
      unfold stackLines
      rw [hf0]
      simp [frameLinesPair]
    have hheadloc : locLineMatch (f0.Function.data) = none := by
      obtain ⟨_, _, hfn3⟩ := wfName_props hf0wf.1
      exact locLineMatch_none_of_head_not_ws _ hfn3
    have hshape : ((st :: s2).map (fun st2 => stackLines st2 ++ [stackDivider.data])).flatten =
        stackLines st ++ (stackDivider.data ::
          (s2.map (fun st2 => stackLines st2 ++ [stackDivider.data])).flatten) := by
      simp
    rw [hshape]
    have hskip : scanPairs (stackDivider.data :: (stackLines st ++ (stackDivider.data ::
        (s2.map (fun st2 => stackLines st2 ++ [stackDivider.data])).flatten))) =
        scanPairs (stackLines st ++ (stackDivider.data ::
          (s2.map (fun st2 => stackLines st2 ++ [stackDivider.data])).flatten)) := by
      rw [hsl]
      exact scanPairs_step_skip hheadloc
    rw [hskip,
      show stackLines st = ((trimStack st).map frameLinesPair).flatten from rfl,
      scanPairs_frames (trimStack st) _ hfr, ih hwfs2]
    simp

lemma consoleLoop_one_block (stks : Stacks) (b : List Char) :
    consoleLoop stks [b] = if (scanPairs (splitNl b)).length = 0 then stks
      else stks ++ [scanPairs (splitNl b)] := by
  show (if (scanPairs (splitNl b)).length = 0 then consoleLoop stks []
    else consoleLoop (stks ++ [scanPairs (splitNl b)]) []) = _
  by_cases hb : (scanPairs (splitNl b)).length = 0
  · rw [if_pos hb, if_pos hb]; rfl
  · rw [if_neg hb, if_neg hb]; rfl

/-- C4, counterexample: the human-readable form of a two-stack Stack-Set has
no blank line between the stacks (adjacent stacks share one divider line), so
`ParseStacks` sees one single block and regroups all frames into a single
Stack, while the structured encoding keeps two Stacks.  (The decode attempt on
the non-JSON text fails in Go, leaving the accumulator empty, hence
`jsonErr = true` and `[]`.) -/
theorem claim_C4_counterexample :
    (ParseStacksWith true []
        (Stacks.Format [[⟨"f", "a.go", 1⟩], [⟨"g", "b.go", 2⟩]])).length = 1 ∧
    (([[⟨"f", "a.go", 1⟩], [⟨"g", "b.go", 2⟩]] : Stacks).map jsonStackFrames).length = 2 ∧
    ParseStacksWith true [] (Stacks.Format [[⟨"f", "a.go", 1⟩], [⟨"g", "b.go", 2⟩]]) ≠
      ([[⟨"f", "a.go", 1⟩], [⟨"g", "b.go", 2⟩]] : Stacks).map jsonStackFrames :=
  ⟨by decide, by decide, by decide⟩

/-- C4, amended: for a well-formed Stack-Set (stacks non-empty after the
runtime trim; function and file names non-empty, free of line breaks and
carriage returns, not starting with blank space; line numbers in `[0, 2^31)`),
parsing the human-readable form recovers exactly the function/file/line
triples of the structured encoding, in order — but concatenated into a single
Stack (the empty set parses back to the empty set). -/
theorem claim_C4_amended (jsonErr : Bool) (s : Stacks) (h : wfStacks s = true) :
    ParseStacksWith jsonErr [] (Stacks.Format s) =
      if s = [] then [] else [(s.map jsonStackFrames).flatten] := by
  cases s with
  | nil =>
    rw [if_pos rfl]
    cases jsonErr <;> decide
  | cons st s2 =>
    rw [if_neg (by simp)]
    have hprops := wfStacks_props h
    have htrims : ∀ st2 ∈ st :: s2, trimStack st2 ≠ [] :=
      fun st2 hst2 => (hprops st2 hst2).1
    have hlines := fmtLines_facts (st :: s2) h (by simp)
    have hfmt := stacksFormat_eq (st :: s2) htrims
    have hnl : ∀ l ∈ stackDivider.data :: fmtTailLines (st :: s2), ∀ c ∈ l, c ≠ '\n' :=
      fun l hl c hc => ((hlines l hl).2 c hc).1
    have hnonempty : ∀ l ∈ stackDivider.data :: fmtTailLines (st :: s2), l ≠ [] :=
      fun l hl => (hlines l hl).1
    unfold ParseStacksWith
    rw [if_neg (by rintro ⟨-, hg, -⟩; simp at hg)]
    have hnocr : (Stacks.Format (st :: s2)).filter (fun c => c != '\r') =
        Stacks.Format (st :: s2) := by
      rw [List.filter_eq_self]
      intro a ha
      rw [hfmt] at ha
      have := joinLines_chars (p := fun c => c ≠ '\r') (by decide) _
        (fun l hl c hc => ((hlines l hl).2 c hc).2) a ha
      simpa using this
    rw [hnocr, hfmt, splitNl2_joinLines _ (by simp) hnl hnonempty,
      consoleLoop_one_block]
    have hblock : scanPairs (splitNl (joinLines
        (stackDivider.data :: fmtTailLines (st :: s2)))) =
        ((st :: s2).map trimStack).flatten := by
      rw [splitNl_joinLines _ (by simp) hnl]
      conv_lhs => rw [fmtTailLines_eq_flatten (st :: s2) (by simp)]
      exact scanPairs_fmtTail (st :: s2) h
    rw [hblock]
    have hne : ¬ (((st :: s2).map trimStack).flatten).length = 0 := by
      obtain ⟨f0, fs0, hf0⟩ := List.exists_cons_of_ne_nil ((hprops st (by simp)).1)
      simp [hf0]
    rw [if_neg hne, show jsonStackFrames = trimStack from rfl]
    simp

/-- Witness for C4 (amended) at a concrete one-stack set. -/
theorem claim_C4_amended_witness :
    wfStacks [[⟨"f", "a.go", 1⟩]] = true ∧
    ParseStacksWith true [] (Stacks.Format [[⟨"f", "a.go", 1⟩]]) =
      (if ([[⟨"f", "a.go", 1⟩]] : Stacks) = [] then []
        else [(([[⟨"f", "a.go", 1⟩]] : Stacks).map jsonStackFrames).flatten]) :=
  ⟨by decide, claim_C4_amended true [[⟨"f", "a.go", 1⟩]] (by decide)⟩

/-- C5, counterexample: `Stacks.Format` does not render each Stack between its
own pair of divider lines with a blank line between consecutive stacks —
adjacent stacks share a single divider line joined by a single newline. -/
theorem claim_C5_counterexample :
    Stacks.Format [[⟨"f", "a.go", 1⟩], [⟨"g", "b.go", 2⟩]] ≠
      claimFormatC5 [[⟨"f", "a.go", 1⟩], [⟨"g", "b.go", 2⟩]] := by
  decide

/-- C5, amended: for a well-formed Stack-Set (each stack non-empty after the
runtime-frame trim — a stack trimming to empty instead leaves a blank line
between two dividers — and function and file names non-empty, free of line
breaks and carriage returns, not starting with blank space), the lines of the
human-readable form are: one opening divider line, then for each Stack in
Stack-Set order the trimmed frames' lines (the function name, then the
indented `file:line` line), each stack terminated by a divider line that is
shared with the following stack — consecutive stacks are separated by that
single divider line, not by a blank line. -/
theorem claim_C5_amended (s : Stacks) (h : wfStacks s = true) :
    splitNl (Stacks.Format s) = stackDivider.data :: fmtTailLines s := by
  cases s with
  | nil => decide
  | cons st s2 =>
    have hprops := wfStacks_props h
    have htrims : ∀ st2 ∈ st :: s2, trimStack st2 ≠ [] :=
      fun st2 hst2 => (hprops st2 hst2).1
    have hlines := fmtLines_facts (st :: s2) h (by simp)
    rw [stacksFormat_eq (st :: s2) htrims,
      splitNl_joinLines _ (by simp) (fun l hl c hc => ((hlines l hl).2 c hc).1)]

/-- Witness for C5 (amended) at a concrete two-stack set. -/
theorem claim_C5_amended_witness :
    wfStacks [[⟨"f", "a.go", 1⟩], [⟨"g", "b.go", 2⟩]] = true ∧
    splitNl (Stacks.Format [[⟨"f", "a.go", 1⟩], [⟨"g", "b.go", 2⟩]]) =
      stackDivider.data :: fmtTailLines [[⟨"f", "a.go", 1⟩], [⟨"g", "b.go", 2⟩]] :=
  ⟨by decide, claim_C5_amended [[⟨"f", "a.go", 1⟩], [⟨"g", "b.go", 2⟩]] (by decide)⟩

end Stackerr
